import Mathlib

/-!
Shallow embedding of the particle-filter core of the fl library
(discrete_distribution.hpp and particle_filter.hpp), with weights modelled
as exact real numbers.  Eigen dynamic arrays and std vectors are modelled
as Lean lists; the C++ FloatingPoint scalar is modelled as the real type.
-/

namespace FL

/-- Eigen maxCoeff over a dynamic array: the running maximum of all entries,
seeded with the first one.  Eigen asserts that the array is nonempty; the
value returned for the empty list is irrelevant junk (every theorem below
that depends on the maximum assumes a nonempty input). -/
def maxCoeff : List ℝ → ℝ
  | [] => 0
  | x :: xs => xs.foldl max x

/-- Running cumulative sums starting from accumulator acc: the translation of
the loop cumul[0] = pm[0]; cumul[i] = cumul[i-1] + pm[i]. -/
def cumsumFrom (acc : ℝ) : List ℝ → List ℝ
  | [] => []
  | x :: xs => (acc + x) :: cumsumFrom (acc + x) xs

/-- Cumulative-sum table of a list, as built by log_unnormalized_prob_mass. -/
def cumsum (l : List ℝ) : List ℝ :=
  cumsumFrom 0 l

/-- Translation of std lower_bound over a vector of reals: the index of the
first entry that is not less than u, or the length when every entry is
less than u.  The std binary search coincides with this linear scan on the
non-decreasing arrays the code applies it to. -/
noncomputable def lowerBound : List ℝ → ℝ → ℕ
  | [], _ => 0
  | x :: xs, u => if u ≤ x then 0 else lowerBound xs u + 1

/-- Map a function of the index and the element over a list, indices starting
at i: the translation of the indexed for loops over particle arrays. -/
def mapFrom (f : ℕ → α → β) (i : ℕ) : List α → List β
  | [] => []
  | x :: xs => f i x :: mapFrom f (i + 1) xs

/-- Eigen resize on a dynamic array of locations.  When the size is unchanged
Eigen keeps the storage, so the values survive; when the size changes the
new storage is uninitialized, modelled here by default padding (no theorem
below depends on the padded values, only on the length). -/
def resize [Inhabited V] (n : ℕ) (l : List V) : List V :=
  if l.length = n then l else l.take n ++ List.replicate (n - l.length) default

/-- The DiscreteDistribution state: the four member arrays of the C++ class
(locations_, log_prob_mass_, prob_mass_, cumul_distr_). -/
structure DiscreteDistribution (V : Type) where
  locations : List V
  log_prob_mass : List ℝ
  prob_mass : List ℝ
  cumul_distr : List ℝ

namespace DiscreteDistribution

/-- The C++ default constructor: one zero-valued location z, log mass zero,
cumulative table holding the single entry 1.  The member prob_mass_ is
never assigned by the constructor, so it is the default-constructed empty
dynamic array. -/
def init (z : V) : DiscreteDistribution V :=
  { locations := [z]
    log_prob_mass := [0]
    prob_mass := []
    cumul_distr := [1] }

/-- size() returns the length of the locations array. -/
def size (d : DiscreteDistribution V) : ℕ :=
  d.locations.length

/-- The rescaled log mass: every entry minus the maximum entry (the numeric
stability step of log_unnormalized_prob_mass). -/
def rescaled (lm : List ℝ) : List ℝ :=
  lm.map (fun x => x - maxCoeff lm)

/-- The sum of the exponentials of the rescaled log mass (the variable sum in
log_unnormalized_prob_mass). -/
noncomputable def expSum (lm : List ℝ) : ℝ :=
  ((rescaled lm).map Real.exp).sum

/-- The normalized probability masses computed by log_unnormalized_prob_mass:
exponentials of the rescaled log mass, divided by their sum. -/
noncomputable def normalizedPM (lm : List ℝ) : List ℝ :=
  (rescaled lm).map (fun x => Real.exp x / expSum lm)

/-- The normalized log probability masses computed by
log_unnormalized_prob_mass: the rescaled log mass minus the log of the
exponential sum. -/
noncomputable def normalizedLPM (lm : List ℝ) : List ℝ :=
  (rescaled lm).map (fun x => x - Real.log (expSum lm))

/-- Translation of DiscreteDistribution::log_unnormalized_prob_mass: rescale
by the maximum, exponentiate, normalize by the sum, rebuild the cumulative
table, and resize the locations array to the new count.  The source
performs no validation and contains no throw statement. -/
noncomputable def log_unnormalized_prob_mass [Inhabited V]
    (lm : List ℝ) (d : DiscreteDistribution V) : DiscreteDistribution V :=
  { locations := resize lm.length d.locations
    log_prob_mass := normalizedLPM lm
    prob_mass := normalizedPM lm
    cumul_distr := cumsum (normalizedPM lm) }

/-- Translation of DiscreteDistribution::delta_log_prob_mass: rerun the
normalization pipeline on the current log mass plus the delta.  Eigen
asserts that the two arrays have equal sizes; zipWith agrees with the
Eigen sum on equal sizes. -/
noncomputable def delta_log_prob_mass [Inhabited V]
    (delta : List ℝ) (d : DiscreteDistribution V) : DiscreteDistribution V :=
  log_unnormalized_prob_mass (List.zipWith (· + ·) d.log_prob_mass delta) d

/-- Translation of DiscreteDistribution::set_uniform: run the pipeline on a
zero log-mass vector of the requested size. -/
noncomputable def set_uniform [Inhabited V]
    (new_size : ℕ) (d : DiscreteDistribution V) : DiscreteDistribution V :=
  log_unnormalized_prob_mass (List.replicate new_size 0) d

/-- The index computed inside map_standard_uniform by the lower-bound search
over the cumulative table. -/
noncomputable def msuIndex (d : DiscreteDistribution V) (u : ℝ) : ℕ :=
  lowerBound d.cumul_distr u

/-- The array access locations_[index] in map_standard_uniform is within
bounds exactly when this holds; otherwise the C++ read is out of range. -/
def msuInRange (d : DiscreteDistribution V) (u : ℝ) : Prop :=
  msuIndex d u < d.locations.length

/-- Translation of DiscreteDistribution::map_standard_uniform: return the
location at the lower-bound index of u in the cumulative table.  The C++
read locations_[index] is undefined when the index equals the size (see
msuInRange); the default value models that junk read. -/
noncomputable def map_standard_uniform [Inhabited V]
    (d : DiscreteDistribution V) (u : ℝ) : V :=
  d.locations.getD (msuIndex d u) default

/-- Translation of DiscreteDistribution::from_distribution with the draws
made explicit.  Modelled from the spec: the per-location sampler sample()
of the StandardGaussianMapping base class is not part of the sources at
hand; following the spec wording for resampleFrom, the i-th draw maps a
uniform random value us i through the inverse CDF of the source.  The
loop buffers all new locations before any mutation of the target, so the
draws read only the pre-call state of source; set_uniform then resets the
weights and finally the buffered locations are assigned.  Every field of
the target is overwritten, which is why the result depends only on
source, the requested size and the draws (the aliased call, where source
is the target itself, is the special case source = d). -/
noncomputable def from_distribution [Inhabited V]
    (source : DiscreteDistribution V) (new_size : ℕ) (us : ℕ → ℝ)
    (d : DiscreteDistribution V) : DiscreteDistribution V :=
  let new_locations :=
    (List.range new_size).map (fun i => source.map_standard_uniform (us i))
  let d1 := set_uniform new_size d
  { d1 with locations := new_locations }

/-- Translation of DiscreteDistribution::entropy: the negated sum of the
componentwise products of log mass and mass. -/
def entropy (d : DiscreteDistribution V) : ℝ :=
  -(List.zipWith (· * ·) d.log_prob_mass d.prob_mass).sum

/-- Translation of DiscreteDistribution::kl_given_uniform: log of the size
minus the entropy. -/
noncomputable def kl_given_uniform (d : DiscreteDistribution V) : ℝ :=
  Real.log (d.size : ℝ) - entropy d

/-- The error the spec attributes to weight normalization.  The translated
code never produces it: log_unnormalized_prob_mass contains no throw. -/
inductive DistErr where
  | domainError
deriving DecidableEq

/-- The run of log_unnormalized_prob_mass viewed as a fallible operation.
The source body is a straight-line computation without any conditional
throw, so the translation is ok of the computed state on every input. -/
noncomputable def log_unnormalized_prob_mass_run [Inhabited V]
    (lm : List ℝ) (d : DiscreteDistribution V) :
    Except DistErr (DiscreteDistribution V) :=
  Except.ok (log_unnormalized_prob_mass lm d)

/-- Modelled from the spec, for comparison with the code (refinement): the
spec wording for setLogWeights demands a domain error on an empty log-mass
vector and on a zero or non-finite exponential sum; exact real arithmetic
makes the sum of exponentials of a nonempty vector positive and finite, so
the second failure clause has no exact-arithmetic trigger. -/
noncomputable def setLogWeights_spec [Inhabited V]
    (lm : List ℝ) (d : DiscreteDistribution V) :
    Except DistErr (DiscreteDistribution V) :=
  if lm = [] then Except.error DistErr.domainError
  else if expSum lm = 0 then Except.error DistErr.domainError
  else Except.ok (log_unnormalized_prob_mass lm d)

end DiscreteDistribution

open DiscreteDistribution

/-- Translation of ParticleFilter::predict: copy the prior belief and
overwrite each location with the process model applied to the prior
location, a fresh noise draw and the input.  The noise stream ns makes
the successive process_noise_.sample() calls explicit: the i-th loop
iteration consumes ns i. -/
def predict (f : S → N → I → S) (prior : DiscreteDistribution S)
    (input : I) (ns : ℕ → N) : DiscreteDistribution S :=
  { prior with
      locations := mapFrom (fun i loc => f loc (ns i) input) 0 prior.locations }

/-- The conditional at the head of ParticleFilter::update: when the KL
divergence of the belief from uniform exceeds the threshold, resample the
belief from itself with the draw stream us; otherwise keep it. -/
noncomputable def resampleStep [Inhabited S] (maxKl : ℝ)
    (b : DiscreteDistribution S) (us : ℕ → ℝ) : DiscreteDistribution S :=
  if maxKl < b.kl_given_uniform then from_distribution b b.size us b else b

/-- Translation of ParticleFilter::update for a posterior object distinct
from the predicted belief (the plain call).  After the conditional
resampling, the likelihood delta is evaluated at predicted.locations: the
locations of the predicted argument, not those of the belief being
weighted.  The prior content of the posterior out-parameter is wholly
overwritten on both branches, so it is not a parameter here. -/
noncomputable def update [Inhabited S]
    (g : Obs → List S → List ℝ) (maxKl : ℝ)
    (predicted : DiscreteDistribution S) (obsrv : Obs) (us : ℕ → ℝ) :
    DiscreteDistribution S :=
  delta_log_prob_mass (g obsrv predicted.locations)
    (resampleStep maxKl predicted us)

/-- The update the claim describes, written from the spec words, for
comparison with the translated code (refinement): the likelihood delta is
evaluated at the locations of the belief being weighted, that is at the
freshly resampled locations when resampling was triggered. -/
noncomputable def update_per_claim [Inhabited S]
    (g : Obs → List S → List ℝ) (maxKl : ℝ)
    (predicted : DiscreteDistribution S) (obsrv : Obs) (us : ℕ → ℝ) :
    DiscreteDistribution S :=
  delta_log_prob_mass (g obsrv (resampleStep maxKl predicted us).locations)
    (resampleStep maxKl predicted us)

/-- Translation of ParticleFilter::predict_and_update: predict into the
posterior object, then update it in place.  Inside that update call the
const reference predicted_belief and the output posterior_belief are the
same object, so after the resampling branch mutates it, the likelihood
query predicted_belief.locations() reads the freshly resampled locations;
the divergence test and the resampling draws still read the pre-mutation
predicted state (the call arguments are evaluated before the mutation, and
from_distribution buffers its draws before mutating its target). -/
noncomputable def predict_and_update [Inhabited S]
    (f : S → N → I → S) (g : Obs → List S → List ℝ) (maxKl : ℝ)
    (prior : DiscreteDistribution S) (input : I) (ns : ℕ → N)
    (obsrv : Obs) (us : ℕ → ℝ) : DiscreteDistribution S :=
  delta_log_prob_mass
    (g obsrv (resampleStep maxKl (predict f prior input ns) us).locations)
    (resampleStep maxKl (predict f prior input ns) us)

/-- The structural invariant of the weighted particle set: the four member
arrays have equal sizes, the normalized masses sum to 1, and the
cumulative table is non-decreasing. -/
def wpsInvariant (d : DiscreteDistribution V) : Prop :=
  d.log_prob_mass.length = d.locations.length ∧
  d.prob_mass.length = d.locations.length ∧
  d.cumul_distr.length = d.locations.length ∧
  d.prob_mass.sum = 1 ∧
  d.cumul_distr.Pairwise (· ≤ ·)

/-- A concrete two-particle belief over integer locations 0 and 1 with equal
weights 1/2, as produced by a uniform weighting over those locations. -/
noncomputable def dPredC : DiscreteDistribution ℤ :=
  { locations := [0, 1]
    log_prob_mass := [-Real.log 2, -Real.log 2]
    prob_mass := [1/2, 1/2]
    cumul_distr := [1/2, 1] }

/-- A concrete observation model: log-likelihood 0 at location 1 and -1
elsewhere, for any observation. -/
noncomputable def gC : Unit → List ℤ → List ℝ :=
  fun _ locs => locs.map (fun x => if x = 1 then 0 else -1)

/-- A concrete resampling draw stream: every uniform draw is 9/10. -/
noncomputable def usC : ℕ → ℝ :=
  fun _ => 9/10

/-- A concrete process model: add the noise and the input to the state. -/
def fC : ℤ → ℤ → ℤ → ℤ :=
  fun s n i => s + n + i

/-- A concrete noise stream that always draws 0. -/
def nsC : ℕ → ℤ :=
  fun _ => 0

/-! Basic lemmas about the helper functions. -/

theorem mapFrom_length (f : ℕ → α → β) (i : ℕ) (l : List α) :
    (mapFrom f i l).length = l.length := by
  induction l generalizing i with
  | nil => rfl
  | cons x xs ih => simp [mapFrom, ih]

theorem mapFrom_getD (f : ℕ → α → β) (i j : ℕ) (l : List α)
    (dB : β) (dA : α) (hj : j < l.length) :
    (mapFrom f i l).getD j dB = f (i + j) (l.getD j dA) := by
  induction l generalizing i j with
  | nil => simp at hj
  | cons x xs ih =>
    cases j with
    | zero => rfl
    | succ j =>
      have hj2 : j < xs.length := by simpa using hj
      have := ih (i + 1) j hj2
      simpa [mapFrom, Nat.add_assoc, Nat.add_comm 1 j] using this

theorem cumsumFrom_length (acc : ℝ) (l : List ℝ) :
    (cumsumFrom acc l).length = l.length := by
  induction l generalizing acc with
  | nil => rfl
  | cons x xs ih => simp [cumsumFrom, ih]

theorem cumsum_length (l : List ℝ) : (cumsum l).length = l.length :=
  cumsumFrom_length 0 l

theorem cumsumFrom_last (acc : ℝ) (l : List ℝ) (h : l ≠ []) :
    (cumsumFrom acc l).getD (l.length - 1) 0 = acc + l.sum := by
  induction l generalizing acc with
  | nil => exact absurd rfl h
  | cons x xs ih =>
    cases xs with
    | nil => simp [cumsumFrom]
    | cons y ys =>
      have hne : (y :: ys) ≠ ([] : List ℝ) := by simp
      have hlen : (y :: ys).length - 1 + 1 = (y :: ys).length := by simp
      calc (cumsumFrom acc (x :: y :: ys)).getD ((x :: y :: ys).length - 1) 0
          = (cumsumFrom (acc + x) (y :: ys)).getD ((y :: ys).length - 1) 0 := by
            simp [cumsumFrom]
        _ = (acc + x) + (y :: ys).sum := ih (acc + x) hne
        _ = acc + (x :: y :: ys).sum := by simp; ring

theorem cumsum_last (l : List ℝ) (h : l ≠ []) :
    (cumsum l).getD (l.length - 1) 0 = l.sum := by
  have := cumsumFrom_last 0 l h
  simpa [cumsum] using this

theorem cumsumFrom_chain (acc : ℝ) (l : List ℝ) (h : ∀ x ∈ l, 0 ≤ x) :
    List.Chain (· ≤ ·) acc (cumsumFrom acc l) := by
  induction l generalizing acc with
  | nil => exact List.Chain.nil
  | cons x xs ih =>
    refine List.Chain.cons ?_ (ih (acc + x) (fun y hy => h y (by simp [hy])))
    have : 0 ≤ x := h x (by simp)
    linarith

theorem cumsum_pairwise (l : List ℝ) (h : ∀ x ∈ l, 0 ≤ x) :
    (cumsum l).Pairwise (· ≤ ·) := by
  have hc : List.Chain (· ≤ ·) 0 (cumsum l) := cumsumFrom_chain 0 l h
  have hc2 : List.Chain' (· ≤ ·) (cumsum l) :=
    List.Chain'.tail (l := 0 :: cumsum l) hc
  exact List.chain'_iff_pairwise.mp hc2

theorem pairwise_getD_mono (c : List ℝ) (hp : c.Pairwise (· ≤ ·))
    (i j : ℕ) (hij : i ≤ j) (hj : j < c.length) :
    c.getD i 0 ≤ c.getD j 0 := by
  rcases Nat.lt_or_ge i j with hlt | hge
  · have hi : i < c.length := lt_trans hlt hj
    rw [List.getD_eq_getElem c 0 hi, List.getD_eq_getElem c 0 hj]
    exact List.pairwise_iff_getElem.mp hp i j hi hj hlt
  · have : i = j := le_antisymm hij hge
    rw [this]

theorem lowerBound_le_length (c : List ℝ) (u : ℝ) :
    lowerBound c u ≤ c.length := by
  induction c with
  | nil => simp [lowerBound]
  | cons x xs ih =>
    by_cases h : u ≤ x
    · simp [lowerBound, h]
    · simp only [lowerBound, if_neg h, List.length_cons]
      omega

theorem lowerBound_getD_ge (c : List ℝ) (u : ℝ)
    (h : lowerBound c u < c.length) :
    u ≤ c.getD (lowerBound c u) 0 := by
  induction c with
  | nil => simp at h
  | cons x xs ih =>
    by_cases hx : u ≤ x
    · simp [lowerBound, hx]
    · simp only [lowerBound, if_neg hx] at h ⊢
      have h2 : lowerBound xs u < xs.length := by simpa using h
      simpa using ih h2

theorem lowerBound_getD_lt (c : List ℝ) (u : ℝ) (j : ℕ)
    (hj : j < lowerBound c u) :
    c.getD j 0 < u := by
  induction c generalizing j with
  | nil => simp [lowerBound] at hj
  | cons x xs ih =>
    by_cases hx : u ≤ x
    · simp [lowerBound, hx] at hj
    · simp only [lowerBound, if_neg hx] at hj
      cases j with
      | zero => simpa using lt_of_not_ge hx
      | succ j => exact ih j (by omega)

theorem lowerBound_eq (c : List ℝ) (u : ℝ) (k : ℕ) (hk : k < c.length)
    (hlt : ∀ j, j < k → c.getD j 0 < u) (hge : u ≤ c.getD k 0) :
    lowerBound c u = k := by
  induction c generalizing k with
  | nil => simp at hk
  | cons x xs ih =>
    by_cases hx : u ≤ x
    · simp only [lowerBound, if_pos hx]
      by_contra hk0
      have := hlt 0 (by omega)
      simp at this
      linarith
    · simp only [lowerBound, if_neg hx]
      cases k with
      | zero => simp at hge; linarith [lt_of_not_ge hx]
      | succ k =>
        have := ih k (by simpa using hk)
          (fun j hj => by simpa using hlt (j + 1) (by omega))
          (by simpa using hge)
        omega

theorem lowerBound_le_of_getD (c : List ℝ) (u : ℝ) (k : ℕ)
    (_hk : k < c.length) (hge : u ≤ c.getD k 0) :
    lowerBound c u ≤ k := by
  by_contra hcon
  have : c.getD k 0 < u := lowerBound_getD_lt c u k (by omega)
  linarith

theorem lowerBound_lt_length_iff (c : List ℝ) (u : ℝ) (hne : c ≠ [])
    (hp : c.Pairwise (· ≤ ·)) :
    lowerBound c u < c.length ↔ u ≤ c.getD (c.length - 1) 0 := by
  have hlen : 0 < c.length := List.length_pos.mpr hne
  constructor
  · intro h
    have h1 : u ≤ c.getD (lowerBound c u) 0 := lowerBound_getD_ge c u h
    have h2 : c.getD (lowerBound c u) 0 ≤ c.getD (c.length - 1) 0 :=
      pairwise_getD_mono c hp _ _ (by omega) (by omega)
    linarith
  · intro h
    have := lowerBound_le_of_getD c u (c.length - 1) (by omega) h
    omega

theorem resize_length [Inhabited V] (n : ℕ) (l : List V) :
    (resize n l).length = n := by
  unfold resize
  by_cases h : l.length = n
  · simp [h]
  · simp only [if_neg h, List.length_append, List.length_take,
      List.length_replicate]
    omega

theorem sum_map_div_const (l : List ℝ) (f : ℝ → ℝ) (c : ℝ) :
    (l.map (fun x => f x / c)).sum = (l.map f).sum / c := by
  induction l with
  | nil => simp
  | cons x xs ih => simp [ih, add_div]

theorem rescaled_length (lm : List ℝ) : (rescaled lm).length = lm.length := by
  simp [rescaled]

theorem normalizedPM_length (lm : List ℝ) :
    (normalizedPM lm).length = lm.length := by
  simp [normalizedPM, rescaled]

theorem normalizedLPM_length (lm : List ℝ) :
    (normalizedLPM lm).length = lm.length := by
  simp [normalizedLPM, rescaled]

theorem mapExp_sum_pos (lm : List ℝ) (h : lm ≠ []) :
    0 < (lm.map Real.exp).sum := by
  refine List.sum_pos _ ?_ (by simpa using h)
  intro x hx
  rcases List.mem_map.mp hx with ⟨y, _, rfl⟩
  exact Real.exp_pos y

theorem expSum_pos (lm : List ℝ) (h : lm ≠ []) : 0 < expSum lm := by
  refine List.sum_pos _ ?_ ?_
  · intro x hx
    rcases List.mem_map.mp hx with ⟨y, _, rfl⟩
    exact Real.exp_pos y
  · simp [rescaled, h]

theorem expSum_nonneg (lm : List ℝ) : 0 ≤ expSum lm := by
  refine List.sum_nonneg ?_
  intro x hx
  rcases List.mem_map.mp hx with ⟨y, _, rfl⟩
  exact (Real.exp_pos y).le

theorem expSum_eq (lm : List ℝ) :
    expSum lm = (lm.map Real.exp).sum / Real.exp (maxCoeff lm) := by
  unfold expSum rescaled
  rw [List.map_map]
  have : (Real.exp ∘ fun x => x - maxCoeff lm) =
      fun x => Real.exp x / Real.exp (maxCoeff lm) := by
    funext x
    simp [Function.comp, Real.exp_sub]
  rw [this, sum_map_div_const]

/-- The rescaling by the maximum does not change the normalized result: the
probability masses computed by log_unnormalized_prob_mass are the softmax
of the raw log-mass vector. -/
theorem normalizedPM_softmax (lm : List ℝ) (h : lm ≠ []) :
    normalizedPM lm = lm.map (fun x => Real.exp x / (lm.map Real.exp).sum) := by
  have hT : 0 < (lm.map Real.exp).sum := mapExp_sum_pos lm h
  unfold normalizedPM rescaled
  rw [List.map_map]
  refine List.map_congr_left ?_
  intro a _
  simp only [Function.comp]
  rw [expSum_eq, Real.exp_sub]
  have hm : Real.exp (maxCoeff lm) ≠ 0 := (Real.exp_pos _).ne'
  field_simp

theorem normalizedPM_sum (lm : List ℝ) (h : lm ≠ []) :
    (normalizedPM lm).sum = 1 := by
  have hs : 0 < expSum lm := expSum_pos lm h
  unfold normalizedPM
  rw [sum_map_div_const]
  rw [div_eq_one_iff_eq hs.ne']
  rfl

/-- The log table stays consistent with the normalized masses: mapping exp
over the stored log masses recovers the stored masses. -/
theorem exp_normalizedLPM (lm : List ℝ) (h : lm ≠ []) :
    (normalizedLPM lm).map Real.exp = normalizedPM lm := by
  have hs : 0 < expSum lm := expSum_pos lm h
  unfold normalizedLPM normalizedPM
  rw [List.map_map]
  refine List.map_congr_left ?_
  intro a _
  simp only [Function.comp]
  rw [Real.exp_sub, Real.exp_log hs]

theorem normalizedPM_nonneg (lm : List ℝ) :
    ∀ x ∈ normalizedPM lm, 0 ≤ x := by
  intro x hx
  rcases List.mem_map.mp hx with ⟨y, _, rfl⟩
  exact div_nonneg (Real.exp_pos y).le (expSum_nonneg lm)

theorem maxCoeff_replicate_zero (n : ℕ) :
    maxCoeff (List.replicate n (0 : ℝ)) = 0 := by
  cases n with
  | zero => rfl
  | succ k =>
    simp only [List.replicate_succ, maxCoeff]
    induction k with
    | zero => rfl
    | succ j ih => simpa [List.replicate_succ, max_self] using ih

theorem rescaled_replicate_zero (n : ℕ) :
    rescaled (List.replicate n (0 : ℝ)) = List.replicate n 0 := by
  simp [rescaled, maxCoeff_replicate_zero, List.map_replicate]

theorem expSum_replicate_zero (n : ℕ) :
    expSum (List.replicate n (0 : ℝ)) = n := by
  simp [expSum, rescaled_replicate_zero, List.map_replicate, Real.exp_zero,
    List.sum_replicate, nsmul_eq_mul]

/-- A zero log-mass vector of size n normalizes to the uniform masses 1/n. -/
theorem normalizedPM_replicate_zero (n : ℕ) :
    normalizedPM (List.replicate n (0 : ℝ)) =
      List.replicate n (1 / (n : ℝ)) := by
  simp [normalizedPM, rescaled_replicate_zero, expSum_replicate_zero,
    List.map_replicate, Real.exp_zero]

theorem normalizedLPM_replicate_zero (n : ℕ) :
    normalizedLPM (List.replicate n (0 : ℝ)) =
      List.replicate n (-Real.log (n : ℝ)) := by
  simp [normalizedLPM, rescaled_replicate_zero, expSum_replicate_zero,
    List.map_replicate]

theorem zipWith_replicate_add (n : ℕ) (c : ℝ) (w : List ℝ)
    (h : w.length = n) :
    List.zipWith (· + ·) (List.replicate n c) w = w.map (fun x => c + x) := by
  induction w generalizing n with
  | nil => simp
  | cons x xs ih =>
    cases n with
    | zero => simp at h
    | succ m => simp [List.replicate_succ, ih m (by simpa using h)]

theorem sum_map_mul_const_left (l : List ℝ) (f : ℝ → ℝ) (c : ℝ) :
    (l.map (fun x => c * f x)).sum = c * (l.map f).sum := by
  induction l with
  | nil => simp
  | cons x xs ih =>
    simp [ih]
    ring

/-- Adding a common shift to every log mass does not change the normalized
masses: they stay the softmax of the unshifted vector. -/
theorem normalizedPM_shift (w : List ℝ) (c : ℝ) (h : w ≠ []) :
    normalizedPM (w.map (fun x => c + x)) =
      w.map (fun x => Real.exp x / (w.map Real.exp).sum) := by
  have hne : w.map (fun x => c + x) ≠ [] := by simpa using h
  rw [normalizedPM_softmax _ hne]
  have hsum : ((w.map (fun x => c + x)).map Real.exp).sum =
      Real.exp c * (w.map Real.exp).sum := by
    rw [List.map_map]
    have hco : (Real.exp ∘ fun x => c + x) =
        fun x => Real.exp c * Real.exp x := by
      funext x
      simp [Function.comp, Real.exp_add]
    rw [hco, sum_map_mul_const_left]
  rw [List.map_map, hsum]
  refine List.map_congr_left (fun a _ => ?_)
  simp only [Function.comp]
  rw [Real.exp_add, mul_div_mul_left _ _ (Real.exp_pos c).ne']

theorem resize_of_length_eq {V : Type} [Inhabited V] (n : ℕ)
    (l : List V) (h : l.length = n) : resize n l = l :=
  if_pos h

theorem from_distribution_prob_mass {V : Type} [Inhabited V]
    (src d : DiscreteDistribution V) (count : ℕ) (us : ℕ → ℝ) :
    (from_distribution src count us d).prob_mass =
      List.replicate count (1 / (count : ℝ)) := by
  simp [from_distribution, set_uniform, log_unnormalized_prob_mass,
    normalizedPM_replicate_zero]

theorem from_distribution_log_prob_mass {V : Type} [Inhabited V]
    (src d : DiscreteDistribution V) (count : ℕ) (us : ℕ → ℝ) :
    (from_distribution src count us d).log_prob_mass =
      List.replicate count (-Real.log (count : ℝ)) := by
  simp [from_distribution, set_uniform, log_unnormalized_prob_mass,
    normalizedLPM_replicate_zero]

theorem from_distribution_locations {V : Type} [Inhabited V]
    (src d : DiscreteDistribution V) (count : ℕ) (us : ℕ → ℝ) :
    (from_distribution src count us d).locations =
      (List.range count).map (fun i => src.map_standard_uniform (us i)) := by
  simp [from_distribution]

theorem wpsInvariant_lunp {V : Type} [Inhabited V] (lm : List ℝ)
    (d : DiscreteDistribution V) (h : lm ≠ []) :
    wpsInvariant (log_unnormalized_prob_mass lm d) := by
  unfold wpsInvariant
  simp only [log_unnormalized_prob_mass]
  refine ⟨?_, ?_, ?_, ?_, ?_⟩
  · simp [normalizedLPM_length, resize_length]
  · simp [normalizedPM_length, resize_length]
  · simp [cumsum_length, normalizedPM_length, resize_length]
  · exact normalizedPM_sum lm h
  · exact cumsum_pairwise _ (normalizedPM_nonneg lm)

/-- C5: for a nonempty log-weight vector, setLogWeights yields normalized
weights equal to the softmax of the input (the max-subtraction rescaling
does not change the normalized result), the weights sum to 1, and
exponentiating the stored log masses recovers the stored masses. -/
theorem claim_C5 {V : Type} [Inhabited V] (lm : List ℝ)
    (d : DiscreteDistribution V) (h : lm ≠ []) :
    (log_unnormalized_prob_mass lm d).prob_mass =
      lm.map (fun x => Real.exp x / (lm.map Real.exp).sum) ∧
    (log_unnormalized_prob_mass lm d).prob_mass.sum = 1 ∧
    (log_unnormalized_prob_mass lm d).log_prob_mass.map Real.exp =
      (log_unnormalized_prob_mass lm d).prob_mass := by
  refine ⟨?_, ?_, ?_⟩ <;> simp only [log_unnormalized_prob_mass]
  · exact normalizedPM_softmax lm h
  · exact normalizedPM_sum lm h
  · exact exp_normalizedLPM lm h

/-- Witness for C5 at the concrete log-weight vector [0, 0]. -/
theorem claim_C5_witness :
    (log_unnormalized_prob_mass [0, 0]
      (DiscreteDistribution.init (0 : ℤ))).prob_mass.sum = 1 :=
  (claim_C5 [0, 0] (DiscreteDistribution.init 0) (by simp)).2.1

/-- C3 counterexample: on the empty log-mass vector the translated code does
not produce the domain error the claim demands (the body of
log_unnormalized_prob_mass contains no conditional throw), although the
behavior described by the spec words does. -/
theorem claim_C3_counterexample :
    log_unnormalized_prob_mass_run ([] : List ℝ)
        (DiscreteDistribution.init (0 : ℤ)) ≠
      Except.error DistErr.domainError ∧
    setLogWeights_spec ([] : List ℝ) (DiscreteDistribution.init (0 : ℤ)) =
      Except.error DistErr.domainError := by
  constructor
  · simp [log_unnormalized_prob_mass_run]
  · simp [setLogWeights_spec]

/-- C3 amended: log_unnormalized_prob_mass performs no validation and never
raises; on every input it returns a state.  For every nonempty log-mass
vector the exponentiated sum is positive in exact arithmetic, so the
degenerate-sum failure the spec describes cannot arise there and the
spec-described behavior coincides with the code; the normalized weights
then sum to 1.  Only the empty input separates the two. -/
theorem claim_C3 (lm : List ℝ) (d : DiscreteDistribution ℤ) :
    log_unnormalized_prob_mass_run lm d =
      Except.ok (log_unnormalized_prob_mass lm d) ∧
    (lm ≠ [] →
      0 < expSum lm ∧
      setLogWeights_spec lm d = log_unnormalized_prob_mass_run lm d ∧
      (log_unnormalized_prob_mass lm d).prob_mass.sum = 1) := by
  refine ⟨rfl, fun h => ⟨expSum_pos lm h, ?_, ?_⟩⟩
  · unfold setLogWeights_spec log_unnormalized_prob_mass_run
    rw [if_neg h, if_neg (expSum_pos lm h).ne']
  · simp only [log_unnormalized_prob_mass]
    exact normalizedPM_sum lm h

/-- Witness for C3 at the concrete log-mass vector [0]. -/
theorem claim_C3_witness :
    setLogWeights_spec [0] (DiscreteDistribution.init (0 : ℤ)) =
      log_unnormalized_prob_mass_run [0] (DiscreteDistribution.init (0 : ℤ)) :=
  ((claim_C3 [0] (DiscreteDistribution.init 0)).2 (by simp)).2.1

/-- C4 counterexample: a freshly constructed distribution violates the claimed
invariant, because the C++ constructor never assigns prob_mass_: the
locations, log-mass and cumulative arrays have size 1 while the
normalized-mass array is empty (and so sums to 0, not 1). -/
theorem claim_C4_counterexample :
    (DiscreteDistribution.init (0 : ℤ)).locations.length = 1 ∧
    (DiscreteDistribution.init (0 : ℤ)).prob_mass.length = 0 ∧
    ¬ wpsInvariant (DiscreteDistribution.init (0 : ℤ)) := by
  refine ⟨rfl, rfl, ?_⟩
  intro hinv
  have := hinv.2.1
  simp [DiscreteDistribution.init] at this

/-- C4 amended: after each mutation (setLogWeights on a nonempty vector,
addLogWeightDelta on a matching-size delta of a nonempty state, setUniform
with size at least 1, resampleFrom with count at least 1) the four arrays
have equal sizes, the weights sum to 1 and the cumulative table is
non-decreasing; a freshly constructed state violates this only in its
normalized-mass array, which stays empty until the first mutation. -/
theorem claim_C4 {V : Type} [Inhabited V] (d src : DiscreteDistribution V)
    (lm delta : List ℝ) (n count : ℕ) (us : ℕ → ℝ) :
    (lm ≠ [] → wpsInvariant (log_unnormalized_prob_mass lm d)) ∧
    (d.log_prob_mass ≠ [] → delta.length = d.log_prob_mass.length →
      wpsInvariant (delta_log_prob_mass delta d)) ∧
    (1 ≤ n → wpsInvariant (set_uniform n d)) ∧
    (1 ≤ count → wpsInvariant (from_distribution src count us d)) := by
  refine ⟨fun h => wpsInvariant_lunp lm d h, fun h hlen => ?_, fun h => ?_,
    fun h => ?_⟩
  · unfold delta_log_prob_mass
    refine wpsInvariant_lunp _ d ?_
    have hz : (List.zipWith (· + ·) d.log_prob_mass delta).length =
        d.log_prob_mass.length := by
      simp [List.length_zipWith, hlen]
    intro hzero
    rw [hzero] at hz
    exact h (List.eq_nil_of_length_eq_zero hz.symm)
  · unfold set_uniform
    refine wpsInvariant_lunp _ d ?_
    simp only [ne_eq, List.replicate_eq_nil_iff]
    omega
  · have hne : List.replicate count (0 : ℝ) ≠ [] := by
      simp only [ne_eq, List.replicate_eq_nil_iff]
      omega
    unfold wpsInvariant
    rw [from_distribution_prob_mass, from_distribution_log_prob_mass,
      from_distribution_locations]
    refine ⟨?_, ?_, ?_, ?_, ?_⟩
    · simp
    · simp
    · simp [from_distribution, set_uniform, log_unnormalized_prob_mass,
        cumsum_length, normalizedPM_length]
    · have hsum := normalizedPM_sum (List.replicate count 0) hne
      rw [normalizedPM_replicate_zero] at hsum
      simpa using hsum
    · have hcd : (from_distribution src count us d).cumul_distr =
          cumsum (normalizedPM (List.replicate count 0)) := by
        simp [from_distribution, set_uniform, log_unnormalized_prob_mass]
      rw [hcd]
      exact cumsum_pairwise _ (normalizedPM_nonneg _)

theorem resampleStep_pos {S : Type} [Inhabited S] (maxKl : ℝ)
    (b : DiscreteDistribution S) (us : ℕ → ℝ)
    (h : maxKl < b.kl_given_uniform) :
    resampleStep maxKl b us = from_distribution b b.size us b :=
  if_pos h

theorem resampleStep_neg {S : Type} [Inhabited S] (maxKl : ℝ)
    (b : DiscreteDistribution S) (us : ℕ → ℝ)
    (h : ¬ maxKl < b.kl_given_uniform) :
    resampleStep maxKl b us = b :=
  if_neg h

/-- C2: update resamples exactly when the KL divergence of the predicted
belief from uniform strictly exceeds the threshold; on that branch the
belief entering the likelihood weighting is the resampled one, whose
weights are uniform 1/size; otherwise the predicted belief itself, with
its weights carried forward unchanged, enters the weighting. -/
theorem claim_C2 {S Obs : Type} [Inhabited S] (g : Obs → List S → List ℝ)
    (maxKl : ℝ) (pred : DiscreteDistribution S) (obs : Obs) (us : ℕ → ℝ)
    (_hs : 1 ≤ pred.size) :
    (maxKl < pred.kl_given_uniform →
      update g maxKl pred obs us =
        delta_log_prob_mass (g obs pred.locations)
          (from_distribution pred pred.size us pred) ∧
      (from_distribution pred pred.size us pred).prob_mass =
        List.replicate pred.size (1 / (pred.size : ℝ))) ∧
    (¬ maxKl < pred.kl_given_uniform →
      update g maxKl pred obs us =
        delta_log_prob_mass (g obs pred.locations) pred) := by
  constructor
  · intro h
    constructor
    · unfold update
      rw [resampleStep_pos maxKl pred us h]
    · exact from_distribution_prob_mass pred pred pred.size us
  · intro h
    unfold update
    rw [resampleStep_neg maxKl pred us h]

/-- Witness for C2: a one-particle belief with divergence 0 against the
threshold -1 triggers the resampling branch and yields the uniform
singleton weight vector. -/
theorem claim_C2_witness :
    (from_distribution (DiscreteDistribution.init (0 : ℤ))
        (DiscreteDistribution.init (0 : ℤ)).size (fun _ => 0)
        (DiscreteDistribution.init 0)).prob_mass =
      List.replicate (DiscreteDistribution.init (0 : ℤ)).size
        (1 / ((DiscreteDistribution.init (0 : ℤ)).size : ℝ)) := by
  have hkl : (-1 : ℝ) < (DiscreteDistribution.init (0 : ℤ)).kl_given_uniform := by
    norm_num [DiscreteDistribution.kl_given_uniform, DiscreteDistribution.entropy,
      DiscreteDistribution.init, DiscreteDistribution.size]
  exact ((claim_C2 (fun (_ : Unit) (locs : List ℤ) => locs.map (fun _ => 0))
      (-1) (DiscreteDistribution.init 0) () (fun _ => 0)
      (by simp [DiscreteDistribution.size, DiscreteDistribution.init])).1
      hkl).2

/-- C6: predict leaves the weight tables, the log-weight table, the
cumulative table and the particle count of the prior untouched; only the
locations change, the i-th becoming the process model applied to the i-th
prior location, the i-th noise draw and the input. -/
theorem claim_C6 {S N I : Type} [Inhabited S] (f : S → N → I → S)
    (prior : DiscreteDistribution S) (input : I) (ns : ℕ → N) :
    (predict f prior input ns).log_prob_mass = prior.log_prob_mass ∧
    (predict f prior input ns).prob_mass = prior.prob_mass ∧
    (predict f prior input ns).cumul_distr = prior.cumul_distr ∧
    (predict f prior input ns).locations.length = prior.locations.length ∧
    (∀ i, i < prior.locations.length →
      (predict f prior input ns).locations.getD i default =
        f (prior.locations.getD i default) (ns i) input) := by
  refine ⟨rfl, rfl, rfl, ?_, ?_⟩
  · simp [predict, mapFrom_length]
  · intro i hi
    have := mapFrom_getD (fun j loc => f loc (ns j) input) 0 i
      prior.locations default default hi
    simpa [predict] using this

/-- Witness for C6: a two-particle prior pushed through the shift process
model moves its locations and keeps its weight tables. -/
theorem claim_C6_witness :
    (predict fC dPredC 3 nsC).prob_mass = dPredC.prob_mass ∧
    (predict fC dPredC 3 nsC).locations.getD 1 default = 4 := by
  have h := claim_C6 fC dPredC 3 nsC
  refine ⟨h.2.1, ?_⟩
  have h1 := h.2.2.2.2 1 (by simp [dPredC])
  rw [h1]
  simp [dPredC, fC, nsC]

/-- C9: over a belief whose cumulative table is non-decreasing and matches
the locations in length, map_standard_uniform returns the location at the
smallest index whose cumulative entry is at least u: every earlier index
has a cumulative entry strictly below u, and the chosen entry, when in
range, is at least u; at u = 0 the first location is returned when the
first cumulative entry is non-negative; and for u strictly between the
cumulative entries at k-1 and k, the location at k is returned. -/
theorem claim_C9 {V : Type} [Inhabited V] (d : DiscreteDistribution V)
    (u : ℝ) (k : ℕ)
    (hlen : d.cumul_distr.length = d.locations.length)
    (hp : d.cumul_distr.Pairwise (· ≤ ·)) :
    ((∀ j, j < msuIndex d u → d.cumul_distr.getD j 0 < u) ∧
      (msuInRange d u → u ≤ d.cumul_distr.getD (msuIndex d u) 0) ∧
      map_standard_uniform d u = d.locations.getD (msuIndex d u) default) ∧
    (d.cumul_distr ≠ [] → 0 ≤ d.cumul_distr.getD 0 0 →
      map_standard_uniform d 0 = d.locations.getD 0 default) ∧
    (1 ≤ k → k < d.cumul_distr.length → d.cumul_distr.getD (k - 1) 0 < u →
      u < d.cumul_distr.getD k 0 →
      map_standard_uniform d u = d.locations.getD k default) := by
  refine ⟨⟨?_, ?_, rfl⟩, ?_, ?_⟩
  · intro j hj
    exact lowerBound_getD_lt d.cumul_distr u j hj
  · intro hr
    have hr2 : lowerBound d.cumul_distr u < d.locations.length := hr
    exact lowerBound_getD_ge d.cumul_distr u (by omega)
  · intro hne h0
    have hidx : msuIndex d 0 = 0 :=
      lowerBound_eq d.cumul_distr 0 0 (List.length_pos.mpr hne)
        (fun j hj => absurd hj (by omega)) h0
    unfold map_standard_uniform
    rw [hidx]
  · intro hk1 hk2 hgt hlt
    have hidx : msuIndex d u = k := by
      refine lowerBound_eq d.cumul_distr u k hk2 ?_ (le_of_lt hlt)
      intro j hj
      have hmono := pairwise_getD_mono d.cumul_distr hp j (k - 1)
        (by omega) (by omega)
      linarith
    unfold map_standard_uniform
    rw [hidx]

/-- Witness for C9 on a two-particle belief with cumulative table 1/2, 1:
u = 0 selects the first location and u = 3/4 the second. -/
theorem claim_C9_witness :
    map_standard_uniform
      (⟨[10, 20], [0, 0], [1/2, 1/2], [1/2, 1]⟩ : DiscreteDistribution ℤ)
      0 = 10 ∧
    map_standard_uniform
      (⟨[10, 20], [0, 0], [1/2, 1/2], [1/2, 1]⟩ : DiscreteDistribution ℤ)
      (3/4) = 20 := by
  have hp : ([1/2, 1] : List ℝ).Pairwise (· ≤ ·) := by
    norm_num [List.pairwise_cons]
  have h0 := claim_C9
    (⟨[10, 20], [0, 0], [1/2, 1/2], [1/2, 1]⟩ : DiscreteDistribution ℤ)
    0 1 (by simp) hp
  have h1 := claim_C9
    (⟨[10, 20], [0, 0], [1/2, 1/2], [1/2, 1]⟩ : DiscreteDistribution ℤ)
    (3/4) 1 (by simp) hp
  constructor
  · have := h0.2.1 (by simp) (by norm_num)
    simpa using this
  · have := h1.2.2 (le_refl 1) (by simp) (by norm_num) (by norm_num)
    simpa using this

/-- C10: for a nonempty non-decreasing cumulative table matching the
locations in length, the read in map_standard_uniform is in range exactly
when u is at most the last cumulative entry; after a setLogWeights on a
nonempty vector the last cumulative entry equals 1 in exact arithmetic, so
every u at most 1 yields an in-range access, while any u above it drives
the lower-bound index to the array size, out of range. -/
theorem claim_C10 {V : Type} [Inhabited V] (d : DiscreteDistribution V)
    (lm : List ℝ) (u v : ℝ) :
    (d.cumul_distr ≠ [] → d.cumul_distr.Pairwise (· ≤ ·) →
      d.cumul_distr.length = d.locations.length →
      (msuInRange d u ↔
        u ≤ d.cumul_distr.getD (d.cumul_distr.length - 1) 0)) ∧
    (lm ≠ [] →
      (log_unnormalized_prob_mass lm d).cumul_distr.getD
        ((log_unnormalized_prob_mass lm d).cumul_distr.length - 1) 0 = 1 ∧
      (v ≤ 1 → msuInRange (log_unnormalized_prob_mass lm d) v) ∧
      (1 < v → msuIndex (log_unnormalized_prob_mass lm d) v =
        (log_unnormalized_prob_mass lm d).locations.length)) := by
  constructor
  · intro hne hp hlen
    have hiff := lowerBound_lt_length_iff d.cumul_distr u hne hp
    unfold msuInRange msuIndex
    rw [← hlen]
    exact hiff
  · intro h
    have hpmne : normalizedPM lm ≠ [] := by
      intro hz
      have := normalizedPM_length lm
      rw [hz] at this
      exact h (List.eq_nil_of_length_eq_zero this.symm)
    have hclen : (log_unnormalized_prob_mass lm d).cumul_distr.length =
        lm.length := by
      simp [log_unnormalized_prob_mass, cumsum_length, normalizedPM_length]
    have hllen : (log_unnormalized_prob_mass lm d).locations.length =
        lm.length := by
      simp [log_unnormalized_prob_mass, resize_length]
    have hlast : (log_unnormalized_prob_mass lm d).cumul_distr.getD
        ((log_unnormalized_prob_mass lm d).cumul_distr.length - 1) 0 = 1 := by
      show (cumsum (normalizedPM lm)).getD
        ((log_unnormalized_prob_mass lm d).cumul_distr.length - 1) 0 = 1
      rw [hclen, ← normalizedPM_length lm,
        cumsum_last (normalizedPM lm) hpmne, normalizedPM_sum lm h]
    have hcne : (log_unnormalized_prob_mass lm d).cumul_distr ≠ [] := by
      intro hz
      rw [hz] at hclen
      exact h (List.eq_nil_of_length_eq_zero hclen.symm)
    have hpw : (log_unnormalized_prob_mass lm d).cumul_distr.Pairwise
        (· ≤ ·) := by
      show (cumsum (normalizedPM lm)).Pairwise (· ≤ ·)
      exact cumsum_pairwise _ (normalizedPM_nonneg lm)
    refine ⟨hlast, ?_, ?_⟩
    · intro hv
      have hiff := lowerBound_lt_length_iff
        (log_unnormalized_prob_mass lm d).cumul_distr v hcne hpw
      unfold msuInRange msuIndex
      rw [← hclen, hllen, ← hclen] at *
      exact hiff.mpr (by rw [hlast]; exact hv)
    · intro hv
      have hle := lowerBound_le_length
        (log_unnormalized_prob_mass lm d).cumul_distr v
      have hnotlt : ¬ lowerBound (log_unnormalized_prob_mass lm d).cumul_distr
          v < (log_unnormalized_prob_mass lm d).cumul_distr.length := by
        intro hltc
        have hiff := lowerBound_lt_length_iff
          (log_unnormalized_prob_mass lm d).cumul_distr v hcne hpw
        have := hiff.mp hltc
        rw [hlast] at this
        linarith
      unfold msuIndex
      omega

/-- Witness for C10 after a setLogWeights on [0, 0]: u = 1/2 reads in range
and u = 2 drives the index to the size 2. -/
theorem claim_C10_witness :
    msuInRange (log_unnormalized_prob_mass [0, 0]
      (DiscreteDistribution.init (0 : ℤ))) (1/2) ∧
    msuIndex (log_unnormalized_prob_mass [0, 0]
        (DiscreteDistribution.init (0 : ℤ))) 2 =
      (log_unnormalized_prob_mass [0, 0]
        (DiscreteDistribution.init (0 : ℤ))).locations.length := by
  constructor
  · exact ((claim_C10 (DiscreteDistribution.init (0 : ℤ)) [0, 0] 0
      (1/2)).2 (by simp)).2.1 (by norm_num)
  · exact ((claim_C10 (DiscreteDistribution.init (0 : ℤ)) [0, 0] 0
      2).2 (by simp)).2.2 (by norm_num)

/-- Witness for C4: the invariant holds after a setLogWeights on [0] and after
a resampleFrom with count 1. -/
theorem claim_C4_witness :
    wpsInvariant (log_unnormalized_prob_mass [0]
      (DiscreteDistribution.init (0 : ℤ))) ∧
    wpsInvariant (from_distribution (DiscreteDistribution.init (0 : ℤ)) 1
      (fun _ => 0) (DiscreteDistribution.init 0)) :=
  ⟨(claim_C4 (DiscreteDistribution.init (0 : ℤ)) (DiscreteDistribution.init 0)
      [0] [0] 1 1 (fun _ => 0)).1 (by simp),
   (claim_C4 (DiscreteDistribution.init (0 : ℤ)) (DiscreteDistribution.init 0)
      [0] [0] 1 1 (fun _ => 0)).2.2.2 (le_refl 1)⟩

/-- C8: resampleFrom resets the target to exactly count locations with
uniform weights 1/count summing to 1, the i-th location drawn by mapping
the i-th uniform draw through the inverse CDF of the pre-call source;
because every draw is buffered before any mutation of the target, the
result does not depend on the prior content of the target at all, which
is what makes the aliased call (source and target the same object) agree
with the call on distinct objects. -/
theorem claim_C8 {V : Type} [Inhabited V] (src d d2 : DiscreteDistribution V)
    (count : ℕ) (us : ℕ → ℝ) (h : 1 ≤ count) :
    (from_distribution src count us d).prob_mass =
      List.replicate count (1 / (count : ℝ)) ∧
    (from_distribution src count us d).locations =
      (List.range count).map (fun i => src.map_standard_uniform (us i)) ∧
    (from_distribution src count us d).locations.length = count ∧
    (from_distribution src count us d).prob_mass.sum = 1 ∧
    from_distribution src count us d = from_distribution src count us d2 := by
  refine ⟨from_distribution_prob_mass src d count us,
    from_distribution_locations src d count us, ?_, ?_, ?_⟩
  · rw [from_distribution_locations]
    simp
  · rw [from_distribution_prob_mass]
    have hc : (count : ℝ) ≠ 0 := by
      simp only [ne_eq, Nat.cast_eq_zero]
      omega
    simp [List.sum_replicate, nsmul_eq_mul]
    field_simp
  · simp [from_distribution, set_uniform, log_unnormalized_prob_mass]

/-- Witness for C8: resampling twice from a two-particle source with both
uniform draws 3/4 selects the second location twice and yields uniform
weights. -/
theorem claim_C8_witness :
    (from_distribution
      (⟨[10, 20], [0, 0], [1/2, 1/2], [1/2, 1]⟩ : DiscreteDistribution ℤ)
      2 (fun _ => 3/4) (DiscreteDistribution.init 0)).locations = [20, 20] ∧
    (from_distribution
      (⟨[10, 20], [0, 0], [1/2, 1/2], [1/2, 1]⟩ : DiscreteDistribution ℤ)
      2 (fun _ => 3/4) (DiscreteDistribution.init 0)).prob_mass =
      [1/2, 1/2] := by
  have h := claim_C8
    (⟨[10, 20], [0, 0], [1/2, 1/2], [1/2, 1]⟩ : DiscreteDistribution ℤ)
    (DiscreteDistribution.init 0) (DiscreteDistribution.init 0) 2
    (fun _ => 3/4) (by norm_num)
  have hmsu : map_standard_uniform
      (⟨[10, 20], [0, 0], [1/2, 1/2], [1/2, 1]⟩ : DiscreteDistribution ℤ)
      (3/4) = 20 := by
    unfold map_standard_uniform msuIndex
    simp only [lowerBound]
    rw [if_neg (by norm_num), if_pos (by norm_num)]
    rfl
  constructor
  · rw [h.2.1]
    rw [show List.range 2 = [0, 1] from rfl]
    simp only [List.map_cons, List.map_nil]
    rw [hmsu]
  · rw [h.1]
    norm_num [List.replicate_succ]

theorem dPredC_kl : dPredC.kl_given_uniform = 0 := by
  simp [DiscreteDistribution.kl_given_uniform, DiscreteDistribution.entropy,
    DiscreteDistribution.size, dPredC]
  ring

theorem msu_dPredC : map_standard_uniform dPredC (9/10) = 1 := by
  unfold map_standard_uniform msuIndex dPredC
  simp only [lowerBound]
  rw [if_neg (by norm_num), if_pos (by norm_num)]
  rfl

theorem exp_neg_log_two : Real.exp (-Real.log 2) = 1/2 := by
  rw [Real.exp_neg, Real.exp_log (by norm_num : (0:ℝ) < 2)]
  norm_num

/-- On the concrete two-particle scenario the translated update computes the
likelihood delta at the predicted locations 0, 1 even though the weighted
belief holds the resampled locations 1, 1; the first posterior weight is
therefore the softmax of -1 against 0. -/
theorem update_code_pm0 :
    (update gC (-1) dPredC () usC).prob_mass.getD 0 0 =
      Real.exp (-1) / (Real.exp (-1) + 1) := by
  unfold update
  rw [resampleStep_pos (-1) dPredC usC (by rw [dPredC_kl]; norm_num)]
  unfold delta_log_prob_mass
  rw [from_distribution_log_prob_mass]
  have hdlt : gC () dPredC.locations = [-1, 0] := by
    simp [gC, dPredC]
  rw [hdlt]
  have hsize : dPredC.size = 2 := rfl
  rw [hsize]
  have hz : List.zipWith (· + ·)
      (List.replicate 2 (-Real.log ((2:ℕ) : ℝ))) [-1, 0] =
      [-Real.log 2 + -1, -Real.log 2] := by
    simp [List.replicate_succ]
  rw [hz]
  simp only [log_unnormalized_prob_mass]
  rw [normalizedPM_softmax _ (by simp)]
  simp only [List.map_cons, List.map_nil, List.sum_cons, List.sum_nil]
  simp only [Real.exp_add, exp_neg_log_two]
  simp only [List.getD_cons_zero]
  have hpos : (0:ℝ) < Real.exp (-1) := Real.exp_pos _
  rw [div_eq_div_iff (by linarith) (by linarith)]
  ring

/-- On the same scenario the update described by the claim evaluates the
delta at the resampled locations 1, 1, leaving the uniform weight 1/2. -/
theorem update_claim_pm0 :
    (update_per_claim gC (-1) dPredC () usC).prob_mass.getD 0 0 = 1/2 := by
  unfold update_per_claim
  rw [resampleStep_pos (-1) dPredC usC (by rw [dPredC_kl]; norm_num)]
  unfold delta_log_prob_mass
  rw [from_distribution_log_prob_mass, from_distribution_locations]
  have hsz : dPredC.size = 2 := rfl
  rw [hsz]
  have hlocs : (List.range 2).map
      (fun i => dPredC.map_standard_uniform (usC i)) = [1, 1] := by
    simp [List.range_succ, usC, msu_dPredC]
  rw [hlocs]
  have hdlt : gC () [1, 1] = [0, 0] := by simp [gC]
  rw [hdlt]
  have hz : List.zipWith (· + ·)
      (List.replicate 2 (-Real.log ((2:ℕ) : ℝ))) [0, 0] =
      [-Real.log 2, -Real.log 2] := by
    simp [List.replicate_succ]
  rw [hz]
  simp only [log_unnormalized_prob_mass]
  rw [normalizedPM_softmax _ (by simp)]
  simp only [List.map_cons, List.map_nil, List.sum_cons, List.sum_nil,
    exp_neg_log_two, List.getD_cons_zero]
  norm_num

/-- The two posterior weight vectors of the concrete scenario differ at
index 0, because exp of -1 is not 1. -/
theorem update_code_claim_mismatch :
    (update gC (-1) dPredC () usC).prob_mass.getD 0 0 ≠
      (update_per_claim gC (-1) dPredC () usC).prob_mass.getD 0 0 := by
  rw [update_code_pm0, update_claim_pm0]
  have hpos : (0:ℝ) < Real.exp (-1) := Real.exp_pos _
  intro h0
  rw [div_eq_div_iff (by linarith) (by norm_num)] at h0
  have hone : Real.exp (-1) = 1 := by linarith
  have hzero := (Real.exp_eq_one_iff (-1)).mp hone
  norm_num at hzero

/-- C1 counterexample: on a concrete two-particle predicted belief whose
divergence triggers resampling, the translated update differs from the
update the claim describes, because the likelihood vector is evaluated at
the predicted locations rather than at the freshly resampled locations of
the belief being weighted. -/
theorem claim_C1_counterexample :
    update gC (-1) dPredC () usC ≠ update_per_claim gC (-1) dPredC () usC := by
  intro hEq
  exact update_code_claim_mismatch
    (congrArg (fun b => b.prob_mass.getD 0 0) hEq)

/-- C1 amended: when the divergence check triggers resampling, the
log-likelihood vector added via addLogWeightDelta is the observation
model queried at the predicted belief locations (not at the resampled
locations of the belief being weighted); since the resampled weights are
uniform before the delta, the posterior weights are the softmax of that
likelihood vector, attached to the resampled locations. -/
theorem claim_C1 {S Obs : Type} [Inhabited S]
    (g : Obs → List S → List ℝ) (maxKl : ℝ) (pred : DiscreteDistribution S)
    (obs : Obs) (us : ℕ → ℝ)
    (hres : maxKl < pred.kl_given_uniform)
    (hlen : (g obs pred.locations).length = pred.size) :
    (update g maxKl pred obs us).prob_mass =
      (g obs pred.locations).map
        (fun x => Real.exp x / ((g obs pred.locations).map Real.exp).sum) ∧
    (update g maxKl pred obs us).locations =
      (List.range pred.size).map
        (fun i => pred.map_standard_uniform (us i)) := by
  have hwne : g obs pred.locations ≠ [] ∨ pred.size = 0 := by
    by_cases hz : g obs pred.locations = []
    · right
      rw [hz] at hlen
      simpa using hlen.symm
    · left
      exact hz
  unfold update
  rw [resampleStep_pos _ _ _ hres]
  unfold delta_log_prob_mass
  rw [from_distribution_log_prob_mass,
    zipWith_replicate_add pred.size _ _ hlen]
  constructor
  · simp only [log_unnormalized_prob_mass]
    rcases hwne with hw | hw
    · exact normalizedPM_shift _ _ hw
    · have hnil : g obs pred.locations = [] := by
        have hlen2 := hlen
        rw [hw] at hlen2
        exact List.eq_nil_of_length_eq_zero hlen2
      rw [hnil]
      simp [normalizedPM, rescaled]
  · simp only [log_unnormalized_prob_mass]
    rw [from_distribution_locations]
    refine resize_of_length_eq _ _ ?_
    simp [hlen]

/-- Witness for C1 on the concrete scenario: the posterior weights equal
the softmax of the likelihoods taken at the predicted locations. -/
theorem claim_C1_witness :
    (update gC (-1) dPredC () usC).prob_mass =
      (gC () dPredC.locations).map
        (fun x => Real.exp x /
          ((gC () dPredC.locations).map Real.exp).sum) :=
  (claim_C1 gC (-1) dPredC () usC
    (by rw [dPredC_kl]; norm_num)
    (by simp [gC, dPredC, DiscreteDistribution.size])).1

/-- C7 counterexample: on a concrete prior whose predicted belief triggers
resampling, the fused predict_and_update differs from the composition of
update after predict on distinct belief objects with the same draws,
because the fused call aliases the predicted and posterior beliefs and so
evaluates the likelihoods at the resampled locations. -/
theorem claim_C7_counterexample :
    predict_and_update fC gC (-1) dPredC 0 nsC () usC ≠
      update gC (-1) (predict fC dPredC 0 nsC) () usC := by
  have hpred : predict fC dPredC 0 nsC = dPredC := by
    simp [predict, mapFrom, fC, nsC, dPredC]
  have hL : predict_and_update fC gC (-1) dPredC 0 nsC () usC =
      update_per_claim gC (-1) dPredC () usC := by
    unfold predict_and_update update_per_claim
    rw [hpred]
  intro hEq
  rw [hL, hpred] at hEq
  exact update_code_claim_mismatch
    (congrArg (fun b => b.prob_mass.getD 0 0) hEq).symm

/-- C7 amended: predict_and_update equals the spec-described update (with
likelihoods at the weighted belief locations) applied to the predicted
belief, and it equals the distinct-object composition of update after
predict exactly on the branch where the divergence check does not
trigger resampling. -/
theorem claim_C7 {S N I Obs : Type} [Inhabited S]
    (f : S → N → I → S) (g : Obs → List S → List ℝ) (maxKl : ℝ)
    (prior : DiscreteDistribution S) (input : I) (ns : ℕ → N)
    (obsrv : Obs) (us : ℕ → ℝ) :
    predict_and_update f g maxKl prior input ns obsrv us =
      update_per_claim g maxKl (predict f prior input ns) obsrv us ∧
    (¬ maxKl < (predict f prior input ns).kl_given_uniform →
      predict_and_update f g maxKl prior input ns obsrv us =
        update g maxKl (predict f prior input ns) obsrv us) := by
  refine ⟨rfl, fun h => ?_⟩
  unfold predict_and_update update
  rw [resampleStep_neg _ _ _ h]

/-- Witness for C7: with threshold 1 and a one-particle prior, no resampling
occurs and the fused call coincides with the two-step composition. -/
theorem claim_C7_witness :
    predict_and_update fC gC 1 (DiscreteDistribution.init 0) 0 nsC () usC =
      update gC 1 (predict fC (DiscreteDistribution.init 0) 0 nsC) () usC := by
  refine (claim_C7 fC gC 1 (DiscreteDistribution.init 0) 0 nsC () usC).2 ?_
  norm_num [predict, DiscreteDistribution.kl_given_uniform,
    DiscreteDistribution.entropy, DiscreteDistribution.size,
    DiscreteDistribution.init, mapFrom, fC, nsC]

end FL
